import Mathlib

/-!
Verification development for the VNet gap-report generator (src/main.py).

The core of the program is network-address arithmetic built on top of the
Python standard library module `ipaddress`:

  * `find_vnet_gaps`   - per VNet address space, sweeps the sorted subnets
                         and emits the uncovered intervals;
  * `count_ip_addresses` - parses a CIDR string strictly and returns
                         `num_addresses`, or 0 on a parse error;
  * `ip_range_to_cidr` - parses two address strings and summarizes the
                         inclusive range into CIDR blocks.

This file gives a shallow embedding of those functions together with the
parts of `ipaddress` they call (`ip_network`, `ip_address`, `overlaps`,
`summarize_address_range`, string parsing and formatting for both address
families).  Machine integers are modelled as `Nat` with explicit bounds;
Python exceptions that escape a function are modelled as `Option.none`,
exceptions caught inside a function follow the source's handler.  All
definitions are structurally recursive (with explicit fuel where the
source loops on numbers) so that they evaluate inside the kernel.
-/

namespace VNetGaps

/-- Address family: IPv4 (32-bit) or IPv6 (128-bit). -/
inductive Family where
  | v4 : Family
  | v6 : Family
deriving DecidableEq, Repr

/-- Bit width of an address family (`_max_prefixlen` in `ipaddress`). -/
def Family.width : Family → Nat
  | .v4 => 32
  | .v6 => 128

/-! ## Character and numeral helpers -/

/-- ASCII decimal digit test; matches Python `s.isascii() and s.isdigit()`
applied to a single character. -/
def isDecDigit (c : Char) : Bool := c.isDigit

/-- Hexadecimal digit test; matches membership in `_HEX_DIGITS`
(`0123456789ABCDEFabcdef`). -/
def isHexDigitChar (c : Char) : Bool :=
  c.isDigit || (('a' ≤ c) && (c ≤ 'f')) || (('A' ≤ c) && (c ≤ 'F'))

/-- Numeric value of a decimal digit character. -/
def decDigitVal (c : Char) : Nat := c.toNat - 48

/-- Numeric value of a hexadecimal digit character. -/
def hexDigitVal (c : Char) : Nat :=
  if c.isDigit then c.toNat - 48
  else if 'a' ≤ c then c.toNat - 87
  else c.toNat - 55

/-- Value of a decimal digit string (as `int(s, 10)` on an all-digit string). -/
def decValue (l : List Char) : Nat := l.foldl (fun a c => a * 10 + decDigitVal c) 0

/-- Value of a hexadecimal digit string (as `int(s, 16)` on an all-hex string). -/
def hexValue (l : List Char) : Nat := l.foldl (fun a c => a * 16 + hexDigitVal c) 0

/-- Split a character list at every occurrence of a separator character,
keeping empty pieces; matches Python `str.split(sep)` for a one-character
separator (in particular `[].split = [[]]`, mirroring `"".split(".") == [""]`). -/
def splitOnChar (sep : Char) : List Char → List (List Char)
  | [] => [[]]
  | c :: rest =>
    let r := splitOnChar sep rest
    if c = sep then [] :: r
    else
      match r with
      | h :: t => (c :: h) :: t
      | [] => [[c]]

/-- Decimal digit character for a value below 10. -/
def decDigitChar (d : Nat) : Char := Char.ofNat (48 + d)

/-- Lowercase hexadecimal digit character for a value below 16. -/
def hexDigitChar (d : Nat) : Char :=
  if d < 10 then Char.ofNat (48 + d) else Char.ofNat (87 + d)

/-- Fuelled digit emitter for decimal formatting (most significant first). -/
def natDecGo : Nat → Nat → List Char
  | 0, _ => []
  | f + 1, n => if n = 0 then [] else natDecGo f (n / 10) ++ [decDigitChar (n % 10)]

/-- Decimal rendering of a natural number, as Python `str(n)`.  The fuel 45
covers every value below `10 ^ 45`; all values in this development are below
`2 ^ 128 < 10 ^ 39`. -/
def natDecChars (n : Nat) : List Char := if n = 0 then ['0'] else natDecGo 45 n

/-- Fuelled digit emitter for hexadecimal formatting (most significant first). -/
def natHexGo : Nat → Nat → List Char
  | 0, _ => []
  | f + 1, n => if n = 0 then [] else natHexGo f (n / 16) ++ [hexDigitChar (n % 16)]

/-- Lowercase hexadecimal rendering without leading zeros, as Python
`"%x" % n`.  The fuel 40 covers every value below `16 ^ 40`. -/
def natHexChars (n : Nat) : List Char := if n = 0 then ['0'] else natHexGo 40 n

/-! ## IPv4 text parsing (`_BaseV4._ip_int_from_string` and friends) -/

/-- Python `IPv4Network._parse_octet`: non-empty, ASCII digits only, at most
3 characters, no leading zero (except the single digit "0"), value at
most 255. -/
def parseOctet (l : List Char) : Option Nat :=
  if l.isEmpty then none
  else if ¬ (l.all isDecDigit) then none
  else if 3 < l.length then none
  else if l ≠ ['0'] ∧ l.headD ' ' = '0' then none
  else
    let v := decValue l
    if 255 < v then none else some v

/-- Python `IPv4Network._ip_int_from_string`: reject the empty string, split
on dots, require exactly four octets, combine big-endian. -/
def ipv4IntFromChars (l : List Char) : Option Nat :=
  if l.isEmpty then none
  else
    match splitOnChar '.' l with
    | [o1, o2, o3, o4] => do
      let a ← parseOctet o1
      let b ← parseOctet o2
      let c ← parseOctet o3
      let d ← parseOctet o4
      pure (((a * 256 + b) * 256 + c) * 256 + d)
    | _ => none

/-- Python `IPv4Address(str)`: rejects any input containing a slash, then
parses the dotted-quad form. -/
def ipv4AddressInt (l : List Char) : Option Nat :=
  if l.contains '/' then none else ipv4IntFromChars l

/-! ## Trailing zero bits and netmask recognition -/

/-- Fuelled count of trailing zero bits.  For a non-zero argument and fuel
`b` this computes `min b (number of trailing zero bits)`: the fuel plays the
role of the `bits` cap in `_count_righthand_zero_bits`. -/
def crzGo : Nat → Nat → Nat
  | 0, _ => 0
  | b + 1, n => if n % 2 = 1 then 0 else crzGo b (n / 2) + 1

/-- Python `_count_righthand_zero_bits(number, bits)`: `bits` for zero,
otherwise the number of trailing zero bits capped at `bits`. -/
def countRighthandZeroBits (number bits : Nat) : Nat :=
  if number = 0 then bits else crzGo bits number

/-- Python `_prefix_from_prefix_string` (with family width `maxLen`):
a non-empty ASCII-digit string whose value is at most the width.  Leading
zeros are accepted, signs and spaces are not. -/
def prefixFromPrefixString (maxLen : Nat) (l : List Char) : Option Nat :=
  if l.isEmpty then none
  else if ¬ (l.all isDecDigit) then none
  else
    let v := decValue l
    if v ≤ maxLen then some v else none

/-- Python `_prefix_from_ip_int`: recognize an integer of shape
`1^p 0^(maxLen-p)` as a netmask and return `p`.  `ip / 2 ^ t` is the
arithmetic form of the right shift by the trailing-zero count. -/
def prefixFromIpInt (maxLen ipInt : Nat) : Option Nat :=
  let t := countRighthandZeroBits ipInt maxLen
  let plen := maxLen - t
  if ipInt / 2 ^ t = 2 ^ plen - 1 then some plen else none

/-- Python `IPv4Network._make_netmask` on a string argument: first try a
numeric prefix length, then a dotted-quad netmask, then a dotted-quad
hostmask (whose bitwise complement within 32 bits is `2^32 - 1 - i`). -/
def v4MakeNetmask (l : List Char) : Option Nat :=
  match prefixFromPrefixString 32 l with
  | some p => some p
  | none =>
    match ipv4IntFromChars l with
    | none => none
    | some i =>
      match prefixFromIpInt 32 i with
      | some p => some p
      | none => prefixFromIpInt 32 (2 ^ 32 - 1 - i)

/-! ## IPv6 text parsing (`_BaseV6._ip_int_from_string` and friends) -/

/-- Python `IPv6Network._parse_hextet`: hex digits only, at most four
characters, and non-empty (`int("", 16)` raises). -/
def parseHextet (l : List Char) : Option Nat :=
  if ¬ (l.all isHexDigitChar) then none
  else if 4 < l.length then none
  else if l.isEmpty then none
  else some (hexValue l)

/-- Folds hextets into an accumulator exactly as the parse loop does:
`ip_int = ip_int * 2^16 + hextet` per part. -/
def hextetsFold : List (List Char) → Nat → Option Nat
  | [], acc => some acc
  | p :: rest, acc =>
    match parseHextet p with
    | none => none
    | some v => hextetsFold rest (acc * 65536 + v)

/-- Python `IPv6Network._ip_int_from_string`.  Mirrors the source structure:
minimum three parts, optional trailing IPv4-style suffix, at most nine
parts, at most one interior empty part (the `::`), endpoint rules, and the
high/skip/low assembly of the 128-bit value. -/
def ipv6IntFromChars (l : List Char) : Option Nat :=
  if l.isEmpty then none
  else
    let parts0 := splitOnChar ':' l
    if parts0.length < 3 then none
    else
      let withV4 : Option (List (List Char)) :=
        if (parts0.getLastD []).contains '.' then
          match ipv4AddressInt (parts0.getLastD []) with
          | none => none
          | some v =>
            some (parts0.dropLast ++ [natHexChars (v / 65536), natHexChars (v % 65536)])
        else some parts0
      match withV4 with
      | none => none
      | some parts =>
        if 9 < parts.length then none
        else
          let inner := (parts.drop 1).dropLast
          let emptyCount := (inner.filter List.isEmpty).length
          if 2 ≤ emptyCount then none
          else if emptyCount = 1 then
            let skipIdx := inner.findIdx List.isEmpty + 1
            let headEmpty := (parts.headD []).isEmpty
            let lastEmpty := (parts.getLastD []).isEmpty
            if headEmpty ∧ skipIdx ≠ 1 then none
            else if lastEmpty ∧ skipIdx ≠ parts.length - 2 then none
            else
              let hiCount := if headEmpty then 0 else skipIdx
              let loCount := if lastEmpty then 0 else parts.length - skipIdx - 1
              if 8 ≤ hiCount + loCount then none
              else
                let skipped := 8 - (hiCount + loCount)
                match hextetsFold (parts.take hiCount) 0 with
                | none => none
                | some hiVal =>
                  hextetsFold (parts.drop (parts.length - loCount))
                    (hiVal * 2 ^ (16 * skipped))
          else
            if parts.length ≠ 8 then none
            else if (parts.headD []).isEmpty then none
            else if (parts.getLastD []).isEmpty then none
            else hextetsFold parts 0

/-- Python `IPv6Address._split_scope_id`: at most one percent sign, and a
non-empty scope after it.  The scope id itself only affects rendering of
the original address object, which no modelled computation consumes, so it
is discarded here. -/
def v6SplitScope (l : List Char) : Option (List Char) :=
  match splitOnChar '%' l with
  | [addr] => some addr
  | [addr, scope] => if scope.isEmpty then none else some addr
  | _ => none

/-- Python `IPv6Address(str)`: rejects a slash, strips an optional scope id,
then parses. -/
def ipv6AddressInt (l : List Char) : Option Nat :=
  if l.contains '/' then none
  else
    match v6SplitScope l with
    | none => none
    | some addr => ipv6IntFromChars addr

/-- Python `ipaddress.ip_address(str)` reduced to its integer value: try
IPv4, then IPv6; `none` models the final `ValueError`. -/
def ipAddressInt (s : String) : Option Nat :=
  match ipv4AddressInt s.data with
  | some v => some v
  | none => ipv6AddressInt s.data

/-! ## Networks -/

/-- A parsed network object: address family, network address (an integer
with the host bits cleared), and prefix length. -/
structure IPNetwork where
  family : Family
  base : Nat
  prefixlen : Nat
deriving DecidableEq, Repr

/-- Width of the network's family. -/
def IPNetwork.width (n : IPNetwork) : Nat := n.family.width

/-- Number of addresses spanned by the prefix: `2 ^ (width - prefixlen)`. -/
def IPNetwork.blockSize (n : IPNetwork) : Nat := 2 ^ (n.width - n.prefixlen)

/-- Integer value of `broadcast_address`: the network address with all host
bits set, i.e. `base + blockSize - 1`. -/
def IPNetwork.broadcastInt (n : IPNetwork) : Nat := n.base + n.blockSize - 1

/-- Python `num_addresses`: `int(broadcast) - int(network) + 1`. -/
def IPNetwork.numAddresses (n : IPNetwork) : Nat := n.broadcastInt - n.base + 1

/-- Shared tail of `IPv4Network.__init__` / `IPv6Network.__init__`: check
`packed & netmask == packed`, i.e. that the host bits are clear.  On values
below `2 ^ width`, `addr & netmask` equals `addr - addr % 2 ^ (width -
prefixlen)`, which is the form used here.  Under `strict` a set host bit
raises (`none`); otherwise the address is masked down to its network. -/
def mkNetwork (fam : Family) (strict : Bool) (addr plen : Nat) : Option IPNetwork :=
  let size := 2 ^ (fam.width - plen)
  if addr % size = 0 then some ⟨fam, addr, plen⟩
  else if strict then none
  else some ⟨fam, addr - addr % size, plen⟩

/-- Python `IPv4Network(str, strict)`: split on at most one slash, parse the
address part, parse the mask part (default prefix length 32), normalize. -/
def ipv4NetworkFromChars (strict : Bool) (l : List Char) : Option IPNetwork :=
  match splitOnChar '/' l with
  | [a] => do
    let ip ← ipv4IntFromChars a
    mkNetwork .v4 strict ip 32
  | [a, m] => do
    let ip ← ipv4IntFromChars a
    let p ← v4MakeNetmask m
    mkNetwork .v4 strict ip p
  | _ => none

/-- Python `IPv6Network(str, strict)`: as for IPv4, except that the address
part may carry a scope id (3.11 parses it via `IPv6Address`) and the mask
part must be a numeric prefix length. -/
def ipv6NetworkFromChars (strict : Bool) (l : List Char) : Option IPNetwork :=
  match splitOnChar '/' l with
  | [a] => do
    let ip ← ipv6AddressInt a
    mkNetwork .v6 strict ip 128
  | [a, m] => do
    let ip ← ipv6AddressInt a
    let p ← prefixFromPrefixString 128 m
    mkNetwork .v6 strict ip p
  | _ => none

/-- Python `ipaddress.ip_network(str, strict)`: try IPv4, then IPv6.  In the
source a strict host-bits failure raises a plain `ValueError` that skips the
IPv6 attempt; since no string parses under both families, trying IPv6 after
any IPv4 failure yields the same overall result, so plain fallback is a
faithful model.  `none` covers every escaping `ValueError`. -/
def ipNetwork (strict : Bool) (s : String) : Option IPNetwork :=
  match ipv4NetworkFromChars strict s.data with
  | some n => some n
  | none => ipv6NetworkFromChars strict s.data

/-- `count_ip_addresses` from src/main.py: strict parse (the `strict=True`
default of `ip_network`), return `num_addresses`; any `ValueError` is caught,
logged, and turned into 0. -/
def count_ip_addresses (s : String) : Nat :=
  match ipNetwork true s with
  | some n => n.numAddresses
  | none => 0

/-! ## Membership, overlap, sorting -/

/-- Python `_BaseNetwork.__contains__` for an address: `False` across
families, otherwise `addr & netmask == network_address`; the mask is again
expressed arithmetically as clearing the low `width - prefixlen` bits. -/
def IPNetwork.containsAddr (n : IPNetwork) (fam : Family) (x : Nat) : Bool :=
  n.family = fam ∧ x - x % n.blockSize = n.base

/-- Python `_BaseNetwork.overlaps`: either endpoint of one network lies in
the other. -/
def IPNetwork.overlaps (a b : IPNetwork) : Bool :=
  b.containsAddr a.family a.base || b.containsAddr a.family a.broadcastInt ||
  a.containsAddr b.family b.base || a.containsAddr b.family b.broadcastInt

/-- Ordering used by the sweep: ascending network address. -/
def baseLE (a b : IPNetwork) : Prop := a.base ≤ b.base

instance : DecidableRel baseLE := fun a b => Nat.decLe a.base b.base

instance : IsTotal IPNetwork baseLE := ⟨fun a b => Nat.le_total a.base b.base⟩

instance : IsTrans IPNetwork baseLE := ⟨fun _ _ _ h1 h2 => Nat.le_trans h1 h2⟩

/-- Python `relevant_subnets.sort(key=lambda x: x.network_address)`: a stable
ascending sort by network address.  Insertion sort is stable with respect to
`baseLE`, so it computes the same list as Python's stable sort. -/
def sortByBase (l : List IPNetwork) : List IPNetwork := List.insertionSort baseLE l

/-! ## The gap sweep -/

/-- The inner loop of `find_vnet_gaps` for one address space.  `w` is the
family width, `lastAddr` the space's broadcast address, `cursor` the
`current_address` variable.  Per sorted subnet: emit `[cursor, base - 1]`
when the subnet starts beyond the cursor, then set the cursor to
`broadcast + 1` (unconditionally, as in the source).  Constructing the
address `broadcast + 1` raises `AddressValueError` when it reaches
`2 ^ w`, which aborts the whole computation (`none`).  After the loop a
trailing gap `[cursor, lastAddr]` is emitted when `cursor ≤ lastAddr`. -/
def sweepLoop (w lastAddr : Nat) : Nat → List IPNetwork → Option (List (Nat × Nat))
  | cursor, [] => some (if cursor ≤ lastAddr then [(cursor, lastAddr)] else [])
  | cursor, s :: rest =>
    if s.broadcastInt + 1 < 2 ^ w then
      match sweepLoop w lastAddr (s.broadcastInt + 1) rest with
      | none => none
      | some gs =>
        some ((if cursor < s.base then [(cursor, s.base - 1)] else []) ++ gs)
    else none

/-- The per-address-space body of `find_vnet_gaps`: filter the subnets to
those overlapping the space, sort them by network address, and sweep.  Gaps
are returned as inclusive integer intervals. -/
def findGaps (container : IPNetwork) (subs : List IPNetwork) : Option (List (Nat × Nat)) :=
  sweepLoop container.width container.broadcastInt container.base
    (sortByBase (subs.filter (fun s => container.overlaps s)))

/-! ## Range summarization (`ipaddress.summarize_address_range`) -/

/-- Fuelled bit length: number of binary digits of `n` (0 for 0).  Any fuel
at least `log2 n + 1` gives the exact value; callers pass `w + 2` with
`n ≤ 2 ^ w`. -/
def bitLenGo : Nat → Nat → Nat
  | 0, _ => 0
  | f + 1, n => if n = 0 then 0 else bitLenGo f (n / 2) + 1

/-- The per-step block size exponent of `summarize_address_range`:
`nbits = min(_count_righthand_zero_bits(first, ip_bits),
(last - first + 1).bit_length() - 1)`.  The bit-length fuel `w + 2` is
exact for every length up to `2 ^ w`. -/
def summarizeNbits (w first last : Nat) : Nat :=
  min (countRighthandZeroBits first w) (bitLenGo (w + 2) (last - first + 1) - 1)

/-- The loop of `summarize_address_range` on integers.  Each step takes the
largest aligned block starting at `first` that fits in `[first, last]`.
The explicit fuel is an upper bound on the iteration count; the wrapper
passes `last + 1 - first`, which suffices since `first` grows by at least
one per step.  The middle `if` models the source's early exit when the
block ends at the all-ones address. -/
def summarizeGo : Nat → Nat → Nat → Nat → List (Nat × Nat)
  | 0, _, _, _ => []
  | fuel + 1, w, first, last =>
    if last < first then []
    else if first + 2 ^ summarizeNbits w first last - 1 = 2 ^ w - 1 then
      [(first, w - summarizeNbits w first last)]
    else
      (first, w - summarizeNbits w first last) ::
        summarizeGo fuel w (first + 2 ^ summarizeNbits w first last) last

/-- `summarize_address_range` on integer endpoints for family width `w`,
returning `(base, prefixlen)` pairs in emission order. -/
def summarize_address_range (w first last : Nat) : List (Nat × Nat) :=
  summarizeGo (last + 1 - first) w first last

/-! ## Address and network formatting -/

/-- Python `IPv4Address.__str__`: dotted decimal of the four big-endian
bytes (callers only pass values below `2 ^ 32`). -/
def formatIPv4 (n : Nat) : List Char :=
  natDecChars (n / 16777216 % 256) ++ '.' ::
    (natDecChars (n / 65536 % 256) ++ '.' ::
      (natDecChars (n / 256 % 256) ++ '.' :: natDecChars (n % 256)))

/-- The eight 16-bit hextets of an IPv6 value, most significant first. -/
def v6Hextets (n : Nat) : List Nat :=
  [n / 2 ^ 112 % 65536, n / 2 ^ 96 % 65536, n / 2 ^ 80 % 65536, n / 2 ^ 64 % 65536,
   n / 2 ^ 48 % 65536, n / 2 ^ 32 % 65536, n / 2 ^ 16 % 65536, n % 65536]

/-- Scan for the leftmost longest run of zero hextets, as the loop in
`_compress_hextets`: state is the next index, the length of the current run,
and the best `(start, length)` found so far (updated only on strict
improvement, which keeps the leftmost longest run). -/
def bestRunGo : List Nat → Nat → Nat → Nat × Nat → Nat × Nat
  | [], _, _, best => best
  | h :: t, idx, curLen, best =>
    if h = 0 then
      let curLen := curLen + 1
      let best := if best.2 < curLen then (idx + 1 - curLen, curLen) else best
      bestRunGo t (idx + 1) curLen best
    else bestRunGo t (idx + 1) 0 best

/-- Leftmost longest run of zeros in a hextet list. -/
def bestZeroRun (hx : List Nat) : Nat × Nat := bestRunGo hx 0 0 (0, 0)

/-- Join hextet strings with colons. -/
def joinColon : List (List Char) → List Char
  | [] => []
  | [h] => h
  | h :: t => h ++ ':' :: joinColon t

/-- Python `IPv6Address.__str__` via `_string_from_ip_int` and
`_compress_hextets`: lowercase hextets without leading zeros; a zero run of
length at least two is replaced by `::` (splicing the run out and joining
the two sides, which reproduces the leading/trailing edge cases). -/
def formatIPv6 (n : Nat) : List Char :=
  let hx := v6Hextets n
  let best := bestZeroRun hx
  if 1 < best.2 then
    joinColon ((hx.take best.1).map natHexChars) ++ ':' :: ':' ::
      joinColon ((hx.drop (best.1 + best.2)).map natHexChars)
  else joinColon (hx.map natHexChars)

/-- Render an address value in its family's textual form. -/
def formatAddr : Family → Nat → List Char
  | .v4, n => formatIPv4 n
  | .v6, n => formatIPv6 n

/-! ## `ip_range_to_cidr` -/

/-- An ASCII single quote, used by Python `repr` on ordinary strings. -/
def quoteChar : Char := Char.ofNat 39

/-- The message of the `ValueError` raised by `ip_address` on an unparsable
string, prefixed as the source's handler does (`f"Error: {e}"`).  `repr` is
modelled for strings that themselves contain no quote, backslash, or
control characters, which covers every address-like input. -/
def addrErrorMessage (s : String) : String :=
  String.mk ("Error: ".data ++ quoteChar :: s.data ++ quoteChar ::
    " does not appear to be an IPv4 or IPv6 address".data)

/-- The in-band error produced when the start address exceeds the end
address, from the source's own `raise ValueError(...)` and handler. -/
def rangeOrderErrorMessage : String :=
  "Error: Start IP must be less than or equal to end IP."

/-- `ip_range_to_cidr` from src/main.py.  Both strings are parsed with
`ip_address`; a parse failure or a reversed range raises `ValueError`,
which the function catches and returns as a one-element list containing the
message.  On success the integers are re-wrapped with `ip_address(int)`,
which assigns the family by value (below `2 ^ 32` means IPv4); if the two
re-wrapped families differ, `summarize_address_range` raises `TypeError`,
which is not caught (`none`). -/
def ip_range_to_cidr (startIp endIp : String) : Option (List String) :=
  match ipAddressInt startIp with
  | none => some [addrErrorMessage startIp]
  | some s =>
    match ipAddressInt endIp with
    | none => some [addrErrorMessage endIp]
    | some e =>
      if e < s then some [rangeOrderErrorMessage]
      else
        let famS := if s < 2 ^ 32 then Family.v4 else Family.v6
        let famE := if e < 2 ^ 32 then Family.v4 else Family.v6
        if famS = famE then
          some ((summarize_address_range famS.width s e).map
            (fun b => String.mk (formatAddr famS b.1 ++ '/' :: natDecChars b.2)))
        else none

/-! ## `find_vnet_gaps` -/

/-- A subnet record as consumed by `find_vnet_gaps`: only its
`address_prefixes` list matters. -/
structure SubnetRecord where
  address_prefixes : List String

/-- A VNet record as consumed by `find_vnet_gaps`. -/
structure VNetRecord where
  address_prefixes : List String
  subnets : List SubnetRecord

/-- Fuelled split of a character list on a non-empty separator sequence,
matching Python `str.split(sep)`: leftmost non-overlapping occurrences.
The fuel is the list length. -/
def splitSeqGo (sep : List Char) : Nat → List Char → List (List Char)
  | 0, l => [l]
  | f + 1, l =>
    match l with
    | [] => [[]]
    | c :: rest =>
      if sep ≠ [] ∧ sep.isPrefixOf (c :: rest) then
        [] :: splitSeqGo sep f ((c :: rest).drop sep.length)
      else
        match splitSeqGo sep f rest with
        | h :: t => (c :: h) :: t
        | [] => [[c]]

/-- Python `gap.split(" - ")` as used on a gap string. -/
def gapSplit (g : String) : List (List Char) := splitSeqGo " - ".data g.data.length g.data

/-- Render one gap interval as the source's f-string
`f"{current_address} - {subnet.network_address - 1}"` (or the trailing-gap
variant): both ends formatted in the space's family, joined by " - ". -/
def gapString (fam : Family) (g : Nat × Nat) : String :=
  String.mk (formatAddr fam g.1 ++ " - ".data ++ formatAddr fam g.2)

/-- The per-gap record built at the end of `find_vnet_gaps`: the gap string
is split back on " - " and passed to `ip_range_to_cidr`.  Unpacking with
`*` requires exactly two pieces (always the case for generated strings);
any other arity would raise `TypeError` (`none`). -/
def gapRecord (g : String) : Option (String × List String) :=
  match gapSplit g with
  | [a, b] =>
    match ip_range_to_cidr (String.mk a) (String.mk b) with
    | none => none
    | some cidr => some (g, cidr)
  | _ => none

/-- The body of `find_vnet_gaps` for a single VNet: parse the address
spaces and all subnet prefixes non-strictly (a parse failure propagates),
concatenate the per-space sweeps, then attach the summarized CIDR list to
each gap string. -/
def findVnetGapsOne (v : VNetRecord) : Option (List (String × List String)) := do
  let spaces ← v.address_prefixes.mapM (fun c => ipNetwork false c)
  let subs ← (v.subnets.map (fun sn => sn.address_prefixes)).flatten.mapM
    (fun c => ipNetwork false c)
  let gapLists ← spaces.mapM (fun sp =>
    (findGaps sp subs).map (fun gs => gs.map (fun g => gapString sp.family g)))
  gapLists.flatten.mapM gapRecord

/-- `find_vnet_gaps` from src/main.py, returning each VNet's gap records
(the mutated `vnet["gaps"]` field). -/
def find_vnet_gaps (vnets : List VNetRecord) : Option (List (List (String × List String))) :=
  vnets.mapM findVnetGapsOne

/-! ## Well-formedness -/

/-- Invariants of every network produced by parsing: prefix length within
the family width, base below `2 ^ width`, and host bits clear (the base is
a multiple of the block size). -/
def IPNetwork.Wf (n : IPNetwork) : Prop :=
  n.prefixlen ≤ n.width ∧ n.base < 2 ^ n.width ∧ n.blockSize ∣ n.base

instance (n : IPNetwork) : Decidable n.Wf := by
  unfold IPNetwork.Wf
  infer_instance

/-! ## Gap and coverage predicates used by the claims -/

/-- Membership of an address value in at least one emitted gap interval. -/
def inGapList (gaps : List (Nat × Nat)) (x : Nat) : Prop :=
  ∃ g ∈ gaps, g.1 ≤ x ∧ x ≤ g.2

/-- Membership of an address value in at least one network of a list. -/
def inSubList (l : List IPNetwork) (x : Nat) : Prop :=
  ∃ s ∈ l, s.base ≤ x ∧ x ≤ s.broadcastInt

/-- Membership of an address value in at least one filtered sub-range,
clipped to the container: the point lies in the sub-range and in the
container. -/
def inClippedSubs (container : IPNetwork) (subs : List IPNetwork) (x : Nat) : Prop :=
  ∃ s ∈ subs.filter (fun s => container.overlaps s),
    s.base ≤ x ∧ x ≤ s.broadcastInt ∧ container.base ≤ x ∧ x ≤ container.broadcastInt

/-- Membership of an address value in a summarized block `(base, prefixlen)`
for family width `w`. -/
def inBlk (w : Nat) (b : Nat × Nat) (x : Nat) : Prop :=
  b.1 ≤ x ∧ x ≤ b.1 + 2 ^ (w - b.2) - 1

/-- Two blocks can be replaced by a single aligned CIDR block exactly
covering both: some aligned block has precisely the union of their address
sets. -/
def mergeable (w : Nat) (a b : Nat × Nat) : Prop :=
  ∃ q p, p ≤ w ∧ 2 ^ (w - p) ∣ q ∧ ∀ x, inBlk w (q, p) x ↔ (inBlk w a x ∨ inBlk w b x)

/-- The blocks of a summarization tile the interval `[first, last]` exactly:
each block is a valid aligned prefix starting where the previous one ended,
fits below `last`, and the final block ends exactly at `last`. -/
def blocksChain (w : Nat) : Nat → Nat → List (Nat × Nat) → Prop
  | first, last, [] => first = last + 1
  | first, last, b :: rest =>
    b.1 = first ∧ b.2 ≤ w ∧ 2 ^ (w - b.2) ∣ b.1 ∧ b.1 + 2 ^ (w - b.2) - 1 ≤ last ∧
      blocksChain w (b.1 + 2 ^ (w - b.2)) last rest

/-! ## Basic arithmetic lemmas -/

lemma blockSize_pos (n : IPNetwork) : 0 < n.blockSize :=
  Nat.pos_pow_of_pos _ (by norm_num)

lemma base_le_broadcastInt (n : IPNetwork) : n.base ≤ n.broadcastInt := by
  have := blockSize_pos n
  unfold IPNetwork.broadcastInt
  omega

lemma numAddresses_eq_blockSize (n : IPNetwork) : n.numAddresses = n.blockSize := by
  have := blockSize_pos n
  unfold IPNetwork.numAddresses IPNetwork.broadcastInt
  omega

/-- Consecutive multiples of a common divisor are at least the divisor
apart. -/
lemma add_dvd_le {s u v : Nat} (hu : s ∣ u) (hv : s ∣ v) (h : u < v) : u + s ≤ v := by
  obtain ⟨x, hx⟩ := hu
  obtain ⟨y, hy⟩ := hv
  subst hx hy
  have hxy : x < y := by
    by_contra hc
    push_neg at hc
    exact absurd (Nat.mul_le_mul_left s hc) (by omega)
  calc s * x + s = s * (x + 1) := by ring
  _ ≤ s * y := Nat.mul_le_mul_left s (by omega)

/-! ## Membership and overlap characterization -/

lemma containsAddr_iff (n : IPNetwork) (fam : Family) (x : Nat) (hn : n.Wf) :
    n.containsAddr fam x = true ↔
      (n.family = fam ∧ n.base ≤ x ∧ x ≤ n.broadcastInt) := by
  obtain ⟨-, -, q, hq⟩ := hn
  have hs : 0 < n.blockSize := blockSize_pos n
  have hdm := Nat.div_add_mod x n.blockSize
  have hml : x % n.blockSize < n.blockSize := Nat.mod_lt x hs
  have hrle : x % n.blockSize ≤ x := Nat.mod_le x n.blockSize
  unfold IPNetwork.containsAddr
  simp only [decide_eq_true_eq]
  constructor
  · rintro ⟨hfam, heq⟩
    refine ⟨hfam, by omega, ?_⟩
    unfold IPNetwork.broadcastInt
    omega
  · rintro ⟨hfam, hlo, hhi⟩
    refine ⟨hfam, ?_⟩
    unfold IPNetwork.broadcastInt at hhi
    have hx_ge : q * n.blockSize ≤ x := by
      have hcomm : q * n.blockSize = n.blockSize * q := Nat.mul_comm _ _
      rw [hcomm, ← hq]
      exact hlo
    have hx_lt : x < q * n.blockSize + n.blockSize := by
      have hcomm : q * n.blockSize = n.blockSize * q := Nat.mul_comm _ _
      rw [hcomm, ← hq]
      omega
    have hdiv : x / n.blockSize = q := by
      apply Nat.div_eq_of_lt_le hx_ge
      rw [Nat.succ_mul]
      exact hx_lt
    rw [hdiv] at hdm
    rw [hq]
    omega

lemma overlaps_iff (a b : IPNetwork) (ha : a.Wf) (hb : b.Wf) :
    a.overlaps b = true ↔
      (a.family = b.family ∧ b.base ≤ a.broadcastInt ∧ a.base ≤ b.broadcastInt) := by
  have h1 := base_le_broadcastInt a
  have h2 := base_le_broadcastInt b
  unfold IPNetwork.overlaps
  simp only [Bool.or_eq_true, containsAddr_iff _ _ _ ha, containsAddr_iff _ _ _ hb]
  constructor
  · rintro (((⟨hf, hx⟩ | ⟨hf, hx⟩) | ⟨hf, hx⟩) | ⟨hf, hx⟩) <;>
      exact ⟨by rw [hf], by omega, by omega⟩
  · rintro ⟨hf, hx1, hx2⟩
    rcases Nat.le_total a.base b.base with hab | hab
    · exact Or.inl (Or.inr ⟨hf, by omega, by omega⟩)
    · exact Or.inl (Or.inl (Or.inl ⟨hf.symm, by omega, by omega⟩))

/-- Two aligned blocks of the same family that intersect are nested. -/
lemma aligned_nested {s t A B : Nat} (hs : 0 < s) (ht : 0 < t)
    (hst : s ∣ t ∨ t ∣ s) (hA : s ∣ A) (hB : t ∣ B)
    (h1 : B ≤ A + s - 1) (h2 : A ≤ B + t - 1) :
    (B ≤ A ∧ A + s ≤ B + t) ∨ (A ≤ B ∧ B + t ≤ A + s) := by
  rcases hst with hd | hd
  · left
    have hsB : s ∣ B := Nat.dvd_trans hd hB
    have hBA : B ≤ A := by
      by_contra hc
      push_neg at hc
      have := add_dvd_le hA hsB hc
      omega
    refine ⟨hBA, ?_⟩
    by_contra hc
    push_neg at hc
    have hsBt : s ∣ B + t := Nat.dvd_add hsB hd
    have hABt : A < B + t := by omega
    have := add_dvd_le hA hsBt hABt
    omega
  · right
    have htA : t ∣ A := Nat.dvd_trans hd hA
    have hAB : A ≤ B := by
      by_contra hc
      push_neg at hc
      have := add_dvd_le hB htA hc
      omega
    refine ⟨hAB, ?_⟩
    by_contra hc
    push_neg at hc
    have htAs : t ∣ A + s := Nat.dvd_add htA hd
    have hBAs : B < A + s := by omega
    have := add_dvd_le hB htAs hBAs
    omega

/-! ## Unfolding lemmas for the coverage predicates -/

lemma inGapList_nil (x : Nat) : ¬ inGapList [] x := by
  simp [inGapList]

lemma inGapList_append (l1 l2 : List (Nat × Nat)) (x : Nat) :
    inGapList (l1 ++ l2) x ↔ inGapList l1 x ∨ inGapList l2 x := by
  unfold inGapList
  constructor
  · rintro ⟨g, hg, hx⟩
    rcases List.mem_append.mp hg with h | h
    · exact Or.inl ⟨g, h, hx⟩
    · exact Or.inr ⟨g, h, hx⟩
  · rintro (⟨g, hg, hx⟩ | ⟨g, hg, hx⟩)
    · exact ⟨g, List.mem_append.mpr (Or.inl hg), hx⟩
    · exact ⟨g, List.mem_append.mpr (Or.inr hg), hx⟩

lemma inGapList_singleton (a b x : Nat) :
    inGapList [(a, b)] x ↔ a ≤ x ∧ x ≤ b := by
  simp [inGapList]

lemma inSubList_nil (x : Nat) : ¬ inSubList [] x := by
  simp [inSubList]

lemma inSubList_cons (s : IPNetwork) (l : List IPNetwork) (x : Nat) :
    inSubList (s :: l) x ↔ (s.base ≤ x ∧ x ≤ s.broadcastInt) ∨ inSubList l x := by
  unfold inSubList
  constructor
  · rintro ⟨t, ht, hx⟩
    rcases List.mem_cons.mp ht with h | h
    · exact Or.inl (h ▸ hx)
    · exact Or.inr ⟨t, h, hx⟩
  · rintro (hx | ⟨t, ht, hx⟩)
    · exact ⟨s, List.mem_cons_self s l, hx⟩
    · exact ⟨t, List.mem_cons_of_mem s ht, hx⟩

/-! ## Sweep lemmas -/

/-- Every interval the sweep emits is non-empty: gaps before a subnet are
guarded by `cursor < base`, the trailing gap by `cursor ≤ lastAddr`. -/
lemma sweep_gaps_nonempty :
    ∀ (R : List IPNetwork) {w L cursor : Nat} {gaps : List (Nat × Nat)},
      sweepLoop w L cursor R = some gaps → ∀ g ∈ gaps, g.1 ≤ g.2 := by
  intro R
  induction R with
  | nil =>
    intro w L cursor gaps h g hg
    simp only [sweepLoop] at h
    injection h with h
    subst h
    split at hg
    · rcases List.mem_singleton.mp hg with rfl
      simp
      omega
    · exact absurd hg (List.not_mem_nil g)
  | cons s rest ih =>
    intro w L cursor gaps h g hg
    simp only [sweepLoop] at h
    split at h
    · split at h
      · exact absurd h (by simp)
      · rename_i gs hrec
        injection h with h
        subst h
        rcases List.mem_append.mp hg with hpre | hgs
        · split at hpre
          · rcases List.mem_singleton.mp hpre with rfl
            simp
            omega
          · exact absurd hpre (List.not_mem_nil g)
        · exact ih hrec g hgs
    · exact absurd h (by simp)

/-! ## Parse normalization lemmas -/

/-- Fields of a network built by the shared constructor tail: the family
and prefix length are as requested and the host bits of the base are clear. -/
lemma mkNetwork_fields {fam : Family} {strict : Bool} {a p : Nat} {n : IPNetwork}
    (h : mkNetwork fam strict a p = some n) :
    n.family = fam ∧ n.prefixlen = p ∧ 2 ^ (fam.width - p) ∣ n.base := by
  simp only [mkNetwork] at h
  split at h
  · injection h with h
    subst h
    exact ⟨rfl, rfl, Nat.dvd_of_mod_eq_zero (by assumption)⟩
  · split at h
    · exact absurd h (by simp)
    · injection h with h
      subst h
      refine ⟨rfl, rfl, a / 2 ^ (fam.width - p), ?_⟩
      show a - a % 2 ^ (fam.width - p) = 2 ^ (fam.width - p) * (a / 2 ^ (fam.width - p))
      have hdm := Nat.div_add_mod a (2 ^ (fam.width - p))
      omega

lemma ipv4NetworkFromChars_dvd {strict : Bool} {l : List Char} {n : IPNetwork}
    (h : ipv4NetworkFromChars strict l = some n) : n.blockSize ∣ n.base := by
  unfold ipv4NetworkFromChars at h
  split at h
  · simp only [Option.bind_eq_bind, Option.bind_eq_some] at h
    obtain ⟨ip, -, h⟩ := h
    obtain ⟨hf, hp, hd⟩ := mkNetwork_fields h
    unfold IPNetwork.blockSize IPNetwork.width
    rw [hf, hp]
    exact hd
  · simp only [Option.bind_eq_bind, Option.bind_eq_some] at h
    obtain ⟨ip, -, p, -, h⟩ := h
    obtain ⟨hf, hp, hd⟩ := mkNetwork_fields h
    unfold IPNetwork.blockSize IPNetwork.width
    rw [hf, hp]
    exact hd
  · exact absurd h (by simp)

lemma ipv6NetworkFromChars_dvd {strict : Bool} {l : List Char} {n : IPNetwork}
    (h : ipv6NetworkFromChars strict l = some n) : n.blockSize ∣ n.base := by
  unfold ipv6NetworkFromChars at h
  split at h
  · simp only [Option.bind_eq_bind, Option.bind_eq_some] at h
    obtain ⟨ip, -, h⟩ := h
    obtain ⟨hf, hp, hd⟩ := mkNetwork_fields h
    unfold IPNetwork.blockSize IPNetwork.width
    rw [hf, hp]
    exact hd
  · simp only [Option.bind_eq_bind, Option.bind_eq_some] at h
    obtain ⟨ip, -, p, -, h⟩ := h
    obtain ⟨hf, hp, hd⟩ := mkNetwork_fields h
    unfold IPNetwork.blockSize IPNetwork.width
    rw [hf, hp]
    exact hd
  · exact absurd h (by simp)

/-- Every network produced by `ip_network` is in canonical form: the base
is a multiple of the block size (all host bits clear). -/
lemma ipNetwork_blockSize_dvd {strict : Bool} {s : String} {n : IPNetwork}
    (h : ipNetwork strict s = some n) : n.blockSize ∣ n.base := by
  unfold ipNetwork at h
  split at h
  · rename_i m hv4
    injection h with h
    subst h
    exact ipv4NetworkFromChars_dvd hv4
  · exact ipv6NetworkFromChars_dvd h

/-! ## Claim C9 -/

/-- C9: the address counter is total on strings: for every input it returns
a natural number, equal to `2 ^ (width - prefixlen)` of the parsed network
when the string is a valid strict CIDR, and 0 otherwise (the `ValueError`
is caught and turned into 0). -/
theorem C9_count_total (s : String) :
    (∃ n, ipNetwork true s = some n ∧
        count_ip_addresses s = 2 ^ (n.family.width - n.prefixlen)) ∨
      (ipNetwork true s = none ∧ count_ip_addresses s = 0) := by
  cases h : ipNetwork true s with
  | none => exact Or.inr ⟨rfl, by simp [count_ip_addresses, h]⟩
  | some n =>
    refine Or.inl ⟨n, rfl, ?_⟩
    simp [count_ip_addresses, h, numAddresses_eq_blockSize, IPNetwork.blockSize,
      IPNetwork.width]

/-- Witness for C9 at the valid strict CIDR "10.0.0.0/24". -/
theorem C9_count_total_witness :
    (∃ n, ipNetwork true "10.0.0.0/24" = some n ∧
        count_ip_addresses "10.0.0.0/24" = 2 ^ (n.family.width - n.prefixlen)) ∨
      (ipNetwork true "10.0.0.0/24" = none ∧
        count_ip_addresses "10.0.0.0/24" = 0) :=
  C9_count_total "10.0.0.0/24"

/-! ## Claim C6 -/

/-- C6 (counterexample to the claim as stated): on a malformed CIDR string
the address counter does return a zero count instead of failing. -/
theorem C6_counterexample :
    ipNetwork true "not-a-cidr" = none ∧ count_ip_addresses "not-a-cidr" = 0 := by
  constructor
  · decide
  · decide

/-- C6 (amended): on a malformed CIDR string the address counter catches
the parse error and returns 0 (after logging); the error is not surfaced
to the caller. -/
theorem C6_amended_zero_on_parse_error (s : String) (h : ipNetwork true s = none) :
    count_ip_addresses s = 0 := by
  simp [count_ip_addresses, h]

/-- Witness for the amended C6 at the malformed input "10.0.0.256/24". -/
theorem C6_amended_zero_on_parse_error_witness :
    count_ip_addresses "10.0.0.256/24" = 0 :=
  C6_amended_zero_on_parse_error "10.0.0.256/24" (by decide)

/-! ## Claim C4 -/

/-- C4 (counterexample to the claim as stated): with start above end,
`ip_range_to_cidr` returns an ordinary one-element result list holding an
error message string; no error is signaled to the caller. -/
theorem C4_counterexample :
    ip_range_to_cidr "10.0.0.2" "10.0.0.1" =
      some ["Error: Start IP must be less than or equal to end IP."] := by
  decide

/-- C4 (amended): whenever both addresses parse and the start value
exceeds the end value, the function catches its own `ValueError` and
returns the message inside the result list instead of failing. -/
theorem C4_amended_error_in_result_list (s e : String) (sv ev : Nat)
    (hs : ipAddressInt s = some sv) (he : ipAddressInt e = some ev)
    (hlt : ev < sv) :
    ip_range_to_cidr s e = some [rangeOrderErrorMessage] := by
  simp only [ip_range_to_cidr, hs, he]
  rw [if_pos hlt]

/-- Witness for the amended C4 at the reversed range 10.0.0.2 - 10.0.0.1. -/
theorem C4_amended_error_in_result_list_witness :
    ip_range_to_cidr "10.0.0.2" "10.0.0.1" = some [rangeOrderErrorMessage] :=
  C4_amended_error_in_result_list "10.0.0.2" "10.0.0.1" 167772162 167772161
    (by decide) (by decide) (by decide)

/-! ## Claim C7 -/

/-- C7 (counterexample to the claim as stated): the gap finder parses
non-strictly and normalizes "10.0.0.1/24" to 10.0.0.0/24, but the address
counter parses strictly (the `ip_network` default), rejects the same
string, and returns 0 instead of a normalized count. -/
theorem C7_counterexample :
    ipNetwork false "10.0.0.1/24" = some ⟨Family.v4, 167772160, 24⟩ ∧
      ipNetwork true "10.0.0.1/24" = none ∧
      count_ip_addresses "10.0.0.1/24" = 0 := by
  refine ⟨by decide, by decide, by decide⟩

/-- C7 (amended): the gap finder's non-strict parse accepts host bits and
normalizes to the containing network (the stored base always has its host
bits clear); the address counter's strict parse instead treats such input
as invalid and returns 0. -/
theorem C7_amended_normalization_split (s : String) (n : IPNetwork)
    (h : ipNetwork false s = some n) :
    n.blockSize ∣ n.base ∧
      (ipNetwork true s = none → count_ip_addresses s = 0) :=
  ⟨ipNetwork_blockSize_dvd h, fun h2 => by simp [count_ip_addresses, h2]⟩

/-- Witness for the amended C7 at "10.0.0.1/24". -/
theorem C7_amended_normalization_split_witness :
    (⟨Family.v4, 167772160, 24⟩ : IPNetwork).blockSize ∣
        (⟨Family.v4, 167772160, 24⟩ : IPNetwork).base ∧
      (ipNetwork true "10.0.0.1/24" = none →
        count_ip_addresses "10.0.0.1/24" = 0) :=
  C7_amended_normalization_split "10.0.0.1/24" ⟨Family.v4, 167772160, 24⟩ (by decide)

/-! ## Claim C10 -/

/-- C10: every gap record the gap finder emits describes a non-empty
interval: its first address is at most its last address, for every
container and sub-range list on which the sweep completes. -/
theorem C10_gap_intervals_nonempty (container : IPNetwork) (subs : List IPNetwork)
    (gaps : List (Nat × Nat)) (h : findGaps container subs = some gaps) :
    ∀ g ∈ gaps, g.1 ≤ g.2 :=
  sweep_gaps_nonempty _ h

/-- Witness for C10: the first gap of container 10.0.0.0/24 with subnets
10.0.0.0/26 and 10.0.0.128/26 is the non-empty interval
10.0.0.64 - 10.0.0.127. -/
theorem C10_gap_intervals_nonempty_witness : (167772224 : Nat) ≤ 167772287 :=
  C10_gap_intervals_nonempty ⟨Family.v4, 167772160, 24⟩
    [⟨Family.v4, 167772160, 26⟩, ⟨Family.v4, 167772288, 26⟩]
    [(167772224, 167772287), (167772352, 167772415)] (by decide)
    (167772224, 167772287) (by decide)

/-! ## Claim C3 -/

/-- C3: evaluation of the gap finder at the failing input of the cursor
claim.  Container 10.0.0.0/23 with sub-ranges 10.0.0.0/24 and 10.0.0.64/26:
after the sweep processes 10.0.0.64/26 the code sets the cursor to
10.0.0.128 (167772288) unconditionally, moving it backward from 10.0.1.0
(167772416); with the claimed `max(cursor, last + 1)` update the result
would have been no gaps at all beyond 10.0.1.0, but the code emits
10.0.0.128 - 10.0.1.255, which overlaps the covered 10.0.0.0/24. -/
theorem C3_cursor_assignment_not_max :
    findGaps ⟨Family.v4, 167772160, 23⟩
        [⟨Family.v4, 167772160, 24⟩, ⟨Family.v4, 167772224, 26⟩] =
      some [(167772288, 167772671)] := by
  decide

/-! ## Claim C8 -/

/-- C8: on container "10.0.0.0/24" with sub-ranges "10.0.0.0/26" and
"10.0.0.128/26" the gap finder returns exactly the two gap records
"10.0.0.64 - 10.0.0.127" with ["10.0.0.64/26"] and then
"10.0.0.192 - 10.0.0.255" with ["10.0.0.192/26"], in ascending order. -/
theorem C8_quarter_example :
    find_vnet_gaps [⟨["10.0.0.0/24"], [⟨["10.0.0.0/26"]⟩, ⟨["10.0.0.128/26"]⟩]⟩] =
      some [[("10.0.0.64 - 10.0.0.127", ["10.0.0.64/26"]),
             ("10.0.0.192 - 10.0.0.255", ["10.0.0.192/26"])]] := by
  decide

/-! ## Claim C5 -/

/-- C5: the gap finder ignores sub-ranges that are of a different family or
do not overlap the container: it computes the same result as on the list
with exactly those sub-ranges removed (and in particular succeeds on one
iff it succeeds on the other; the cross-family comparison inside
`overlaps` returns false rather than failing). -/
theorem C5_irrelevant_subranges_ignored (container : IPNetwork)
    (subs : List IPNetwork) (hc : container.Wf) (hs : ∀ s ∈ subs, s.Wf) :
    findGaps container subs =
      findGaps container (subs.filter (fun s =>
        decide (s.family = container.family) &&
          decide (container.base ≤ s.broadcastInt) &&
          decide (s.base ≤ container.broadcastInt))) := by
  have hpq : ∀ s ∈ subs, container.overlaps s =
      (decide (s.family = container.family) &&
        decide (container.base ≤ s.broadcastInt) &&
        decide (s.base ≤ container.broadcastInt)) := by
    intro s hsm
    have hiff := overlaps_iff container s hc (hs s hsm)
    have hq : (decide (s.family = container.family) &&
        decide (container.base ≤ s.broadcastInt) &&
        decide (s.base ≤ container.broadcastInt)) = true ↔
        (s.family = container.family ∧ container.base ≤ s.broadcastInt ∧
          s.base ≤ container.broadcastInt) := by
      simp [Bool.and_eq_true, and_assoc]
    cases hps : container.overlaps s with
    | true =>
      obtain ⟨h1, h2, h3⟩ := hiff.mp hps
      exact (hq.mpr ⟨h1.symm, h3, h2⟩).symm
    | false =>
      cases hqs : (decide (s.family = container.family) &&
          decide (container.base ≤ s.broadcastInt) &&
          decide (s.base ≤ container.broadcastInt)) with
      | false => rfl
      | true =>
        obtain ⟨h1, h2, h3⟩ := hq.mp hqs
        rw [hiff.mpr ⟨h1.symm, h3, h2⟩] at hps
        exact absurd hps (by simp)
  have hlist : subs.filter (fun s => container.overlaps s) =
      (subs.filter (fun s =>
        decide (s.family = container.family) &&
          decide (container.base ≤ s.broadcastInt) &&
          decide (s.base ≤ container.broadcastInt))).filter
        (fun s => container.overlaps s) := by
    rw [List.filter_filter]
    refine List.filter_congr ?_
    intro s hsm
    rw [hpq s hsm]
    exact (Bool.and_self _).symm
  unfold findGaps
  rw [← hlist]

/-- Witness for C5: a container with one genuine subnet, one IPv6 sub-range
and one disjoint IPv4 sub-range produces the same gaps as with the two
irrelevant entries removed. -/
theorem C5_irrelevant_subranges_ignored_witness :
    findGaps ⟨Family.v4, 167772160, 24⟩
        [⟨Family.v4, 167772160, 26⟩, ⟨Family.v6, 1, 128⟩, ⟨Family.v4, 3232235520, 24⟩] =
      findGaps ⟨Family.v4, 167772160, 24⟩
        ([⟨Family.v4, 167772160, 26⟩, ⟨Family.v6, 1, 128⟩,
            ⟨Family.v4, 3232235520, 24⟩].filter (fun s =>
          decide (s.family = (⟨Family.v4, 167772160, 24⟩ : IPNetwork).family) &&
            decide ((⟨Family.v4, 167772160, 24⟩ : IPNetwork).base ≤ s.broadcastInt) &&
            decide (s.base ≤ (⟨Family.v4, 167772160, 24⟩ : IPNetwork).broadcastInt))) :=
  C5_irrelevant_subranges_ignored ⟨Family.v4, 167772160, 24⟩
    [⟨Family.v4, 167772160, 26⟩, ⟨Family.v6, 1, 128⟩, ⟨Family.v4, 3232235520, 24⟩]
    (by decide) (by decide)

/-! ## Trailing-zero lemmas -/

lemma crzGo_le (b : Nat) : ∀ n, crzGo b n ≤ b := by
  induction b with
  | zero => intro n; simp [crzGo]
  | succ b ih =>
    intro n
    simp only [crzGo]
    split
    · omega
    · have := ih (n / 2)
      omega

lemma crzGo_pow_dvd (b : Nat) : ∀ n, 2 ^ crzGo b n ∣ n := by
  induction b with
  | zero => intro n; simp [crzGo]
  | succ b ih =>
    intro n
    simp only [crzGo]
    split
    · simp
    · obtain ⟨m, hm⟩ := ih (n / 2)
      refine ⟨m, ?_⟩
      have hdm := Nat.div_add_mod n 2
      have key : 2 ^ (crzGo b (n / 2) + 1) * m = 2 * (2 ^ crzGo b (n / 2) * m) := by
        ring
      rw [key, ← hm]
      omega

lemma crzGo_ge (k : Nat) : ∀ b n, 2 ^ k ∣ n → n ≠ 0 → k ≤ b → k ≤ crzGo b n := by
  induction k with
  | zero => intro b n _ _ _; exact Nat.zero_le _
  | succ j ih =>
    intro b n hd hn hk
    cases b with
    | zero => omega
    | succ c =>
      have h2 : (2 : Nat) ∣ n := dvd_trans ⟨2 ^ j, by ring⟩ hd
      have hmod : n % 2 = 0 := by omega
      simp only [crzGo]
      rw [if_neg (by omega)]
      obtain ⟨m, hm⟩ := hd
      have hhalf : n / 2 = 2 ^ j * m := by
        have : n = 2 * (2 ^ j * m) := by rw [hm, pow_succ]; ring
        rw [this, Nat.mul_div_cancel_left _ (by norm_num)]
      have hne : n / 2 ≠ 0 := by
        have hdm := Nat.div_add_mod n 2
        omega
      have := ih c (n / 2) ⟨m, hhalf⟩ hne (by omega)
      omega

lemma crz_le (n w : Nat) : countRighthandZeroBits n w ≤ w := by
  unfold countRighthandZeroBits
  split
  · exact le_refl w
  · exact crzGo_le w n

lemma crz_dvd (n w : Nat) : 2 ^ countRighthandZeroBits n w ∣ n := by
  unfold countRighthandZeroBits
  split
  · rename_i h
    rw [h]
    exact Dvd.intro 0 rfl
  · exact crzGo_pow_dvd w n

lemma crz_ge (n w k : Nat) (hd : 2 ^ k ∣ n) (hk : k ≤ w) :
    k ≤ countRighthandZeroBits n w := by
  unfold countRighthandZeroBits
  split
  · exact hk
  · exact crzGo_ge k w n hd (by assumption) hk

/-! ## Bit-length lemmas -/

lemma bitLenGo_zero_val (f : Nat) : bitLenGo f 0 = 0 := by
  cases f <;> simp [bitLenGo]

lemma bitLenGo_lt (f : Nat) : ∀ n, n < 2 ^ f → n < 2 ^ bitLenGo f n := by
  induction f with
  | zero =>
    intro n h
    simp only [pow_zero] at h
    interval_cases n
    simp [bitLenGo]
  | succ f ih =>
    intro n h
    simp only [bitLenGo]
    split
    · simp only [pow_zero]
      omega
    · have hp : 2 ^ (f + 1) = 2 * 2 ^ f := by ring
      have hf2 : n / 2 < 2 ^ f := by omega
      have := ih (n / 2) hf2
      have hp2 : 2 ^ (bitLenGo f (n / 2) + 1) = 2 * 2 ^ bitLenGo f (n / 2) := by ring
      omega

lemma bitLenGo_pos (f n : Nat) (hn : n ≠ 0) : 1 ≤ bitLenGo (f + 1) n := by
  simp only [bitLenGo]
  rw [if_neg hn]
  omega

lemma bitLenGo_le (f : Nat) : ∀ n, n ≠ 0 → n < 2 ^ f → 2 ^ (bitLenGo f n - 1) ≤ n := by
  induction f with
  | zero =>
    intro n hn h
    simp only [pow_zero] at h
    omega
  | succ f ih =>
    intro n hn h
    simp only [bitLenGo]
    rw [if_neg hn]
    by_cases hn2 : n / 2 = 0
    · rw [hn2, bitLenGo_zero_val]
      simp only [Nat.add_sub_cancel, pow_zero]
      omega
    · have hp : 2 ^ (f + 1) = 2 * 2 ^ f := by ring
      have hf2 : n / 2 < 2 ^ f := by omega
      have hb1 : 1 ≤ bitLenGo f (n / 2) := by
        cases f with
        | zero =>
          exfalso
          simp only [pow_zero] at hf2
          omega
        | succ f2 => exact bitLenGo_pos f2 (n / 2) hn2
      have hle := ih (n / 2) hn2 hf2
      have hsplit : 2 ^ bitLenGo f (n / 2) = 2 * 2 ^ (bitLenGo f (n / 2) - 1) := by
        conv_lhs => rw [show bitLenGo f (n / 2) = bitLenGo f (n / 2) - 1 + 1 by omega]
        ring
      have hdm := Nat.div_add_mod n 2
      simp only [Nat.add_sub_cancel]
      omega

/-! ## Powers of two -/

lemma pow_sum_ne_of_lt {a b c : Nat} (hab : a < b) : 2 ^ c ≠ 2 ^ a + 2 ^ b := by
  intro h
  have h1 : 2 ^ (a + 1) ≤ 2 ^ b := Nat.pow_le_pow_right (by norm_num) (by omega)
  have h2 : 2 ^ (a + 1) ≤ 2 ^ c := by
    have := Nat.pos_pow_of_pos a (show 0 < 2 by norm_num)
    omega
  have hc : a + 1 ≤ c := (Nat.pow_le_pow_iff_right (by norm_num)).mp h2
  have hd1 : 2 ^ (a + 1) ∣ 2 ^ c := pow_dvd_pow 2 hc
  have hd2 : 2 ^ (a + 1) ∣ 2 ^ b := pow_dvd_pow 2 (by omega)
  have hd3 : 2 ^ (a + 1) ∣ 2 ^ a := by
    have := Nat.dvd_sub' (h ▸ hd1) hd2
    rwa [Nat.add_sub_cancel] at this
  have hle : 2 ^ (a + 1) ≤ 2 ^ a :=
    Nat.le_of_dvd (Nat.pos_pow_of_pos a (by norm_num)) hd3
  have : (2 : Nat) ^ a < 2 ^ (a + 1) := Nat.pow_lt_pow_right (by norm_num) (by omega)
  omega

lemma pow_sum_cases {a b c : Nat} (h : 2 ^ c = 2 ^ a + 2 ^ b) : a = b ∧ c = a + 1 := by
  rcases lt_trichotomy a b with hab | hab | hab
  · exact absurd h (pow_sum_ne_of_lt hab)
  · subst hab
    refine ⟨rfl, ?_⟩
    have h2 : (2 : Nat) ^ c = 2 ^ (a + 1) := by
      rw [h, pow_succ]
      ring
    exact Nat.pow_right_injective (by norm_num) h2
  · exact absurd (h.trans (Nat.add_comm _ _)) (pow_sum_ne_of_lt hab)

/-! ## Chain lemmas for summarization -/

lemma blocksChain_nil_intro {w first last : Nat} (h : first = last + 1) :
    blocksChain w first last [] := h

lemma blocksChain_cons_intro {w first last k : Nat} {rest : List (Nat × Nat)}
    (hk : k ≤ w) (h3 : 2 ^ k ∣ first) (h4 : first + 2 ^ k - 1 ≤ last)
    (h5 : blocksChain w (first + 2 ^ k) last rest) :
    blocksChain w first last ((first, w - k) :: rest) := by
  have hwk : w - (w - k) = k := by omega
  exact ⟨rfl, by omega, by rw [hwk]; exact h3, by rw [hwk]; omega,
    by rw [hwk]; exact h5⟩

lemma blocksChain_mem_lb {w last : Nat} :
    ∀ {L : List (Nat × Nat)} {first : Nat}, blocksChain w first last L →
      ∀ b ∈ L, first ≤ b.1 ∧ b.1 + 2 ^ (w - b.2) - 1 ≤ last := by
  intro L
  induction L with
  | nil => intro first _ b hb; exact absurd hb (List.not_mem_nil b)
  | cons c rest ih =>
    intro first h b hb
    obtain ⟨h1, -, -, h4, h5⟩ := h
    have hpos : 0 < 2 ^ (w - c.2) := Nat.pos_pow_of_pos _ (by norm_num)
    rcases List.mem_cons.mp hb with rfl | hb2
    · exact ⟨by omega, h4⟩
    · have := ih h5 b hb2
      omega

lemma blocksChain_cover {w last : Nat} :
    ∀ {L : List (Nat × Nat)} {first : Nat}, blocksChain w first last L →
      ∀ x, (∃ b ∈ L, inBlk w b x) ↔ (first ≤ x ∧ x ≤ last) := by
  intro L
  induction L with
  | nil =>
    intro first h x
    simp only [blocksChain] at h
    constructor
    · rintro ⟨b, hb, -⟩
      exact absurd hb (List.not_mem_nil b)
    · intro hx
      omega
  | cons c rest ih =>
    intro first h x
    obtain ⟨h1, -, -, h4, h5⟩ := h
    have hpos : 0 < 2 ^ (w - c.2) := Nat.pos_pow_of_pos _ (by norm_num)
    have ihx := ih h5 x
    constructor
    · rintro ⟨b, hb, hin⟩
      rcases List.mem_cons.mp hb with rfl | hb2
      · unfold inBlk at hin
        omega
      · have := ihx.mp ⟨b, hb2, hin⟩
        omega
    · rintro ⟨hx1, hx2⟩
      by_cases hxc : x ≤ c.1 + 2 ^ (w - c.2) - 1
      · exact ⟨c, List.mem_cons_self c rest, by unfold inBlk; omega⟩
      · obtain ⟨b, hb, hin⟩ := ihx.mpr ⟨by omega, hx2⟩
        exact ⟨b, List.mem_cons_of_mem c hb, hin⟩

lemma blocksChain_ordered {w last : Nat} :
    ∀ {L : List (Nat × Nat)} {first : Nat}, blocksChain w first last L →
      L.Pairwise (fun a b => a.1 + 2 ^ (w - a.2) - 1 < b.1) := by
  intro L
  induction L with
  | nil => intro first _; exact List.Pairwise.nil
  | cons c rest ih =>
    intro first h
    obtain ⟨h1, -, -, h4, h5⟩ := h
    have hpos : 0 < 2 ^ (w - c.2) := Nat.pos_pow_of_pos _ (by norm_num)
    refine List.pairwise_cons.mpr ⟨?_, ih h5⟩
    intro b hb
    have := (blocksChain_mem_lb h5 b hb).1
    omega

/-! ## Correctness of the summarization loop -/

lemma summarizeGo_chain :
    ∀ fuel w first last, last + 1 - first ≤ fuel → last < 2 ^ w →
      first ≤ last + 1 → blocksChain w first last (summarizeGo fuel w first last) := by
  intro fuel
  induction fuel with
  | zero =>
    intro w first last hf hw hfl
    simp only [summarizeGo]
    exact blocksChain_nil_intro (by omega)
  | succ fuel ih =>
    intro w first last hf hw hfl
    simp only [summarizeGo]
    split
    · exact blocksChain_nil_intro (by omega)
    · rename_i hle
      push_neg at hle
      have hk_crz : summarizeNbits w first last ≤ countRighthandZeroBits first w :=
        min_le_left _ _
      have hk_w : summarizeNbits w first last ≤ w := le_trans hk_crz (crz_le first w)
      have hdvd : 2 ^ summarizeNbits w first last ∣ first :=
        dvd_trans (pow_dvd_pow 2 hk_crz) (crz_dvd first w)
      have hLne : last - first + 1 ≠ 0 := by omega
      have hLlt : last - first + 1 < 2 ^ (w + 2) := by
        have h4 : 2 ^ (w + 2) = 4 * 2 ^ w := by ring
        omega
      have hble := bitLenGo_le (w + 2) (last - first + 1) hLne hLlt
      have hfit : 2 ^ summarizeNbits w first last ≤ last - first + 1 :=
        le_trans (Nat.pow_le_pow_right (by norm_num) (min_le_right _ _)) hble
      have hpos : 0 < 2 ^ summarizeNbits w first last :=
        Nat.pos_pow_of_pos _ (by norm_num)
      have hwsub : w - (w - summarizeNbits w first last) = summarizeNbits w first last := by
        omega
      have hwpos : 0 < 2 ^ w := Nat.pos_pow_of_pos _ (by norm_num)
      split
      · rename_i hbreak
        exact blocksChain_cons_intro hk_w hdvd (by omega)
          (blocksChain_nil_intro (by omega))
      · exact blocksChain_cons_intro hk_w hdvd (by omega)
          (ih w (first + 2 ^ summarizeNbits w first last) last (by omega) hw (by omega))

lemma summarizeGo_nil_of_lt (fuel w first last : Nat) (h : last < first) :
    summarizeGo fuel w first last = [] := by
  cases fuel with
  | zero => simp [summarizeGo]
  | succ fuel => simp [summarizeGo, h]

lemma summarizeGo_head (fuel w first last : Nat) (hfl : first ≤ last) :
    (summarizeGo (fuel + 1) w first last).head? =
      some (first, w - summarizeNbits w first last) := by
  simp only [summarizeGo]
  rw [if_neg (by omega)]
  split <;> rfl

lemma summarizeGo_noMerge :
    ∀ fuel w first last, last + 1 - first ≤ fuel → last < 2 ^ w →
      List.Chain' (fun a b => ¬ mergeable w a b) (summarizeGo fuel w first last) := by
  intro fuel
  induction fuel with
  | zero =>
    intro w first last hf hw
    simp only [summarizeGo]
    exact List.chain'_nil
  | succ fuel ih =>
    intro w first last hf hw
    simp only [summarizeGo]
    split
    · exact List.chain'_nil
    · rename_i hle
      push_neg at hle
      have hk_crz : summarizeNbits w first last ≤ countRighthandZeroBits first w :=
        min_le_left _ _
      have hk_w : summarizeNbits w first last ≤ w := le_trans hk_crz (crz_le first w)
      have hLne : last - first + 1 ≠ 0 := by omega
      have hLlt : last - first + 1 < 2 ^ (w + 2) := by
        have h4 : 2 ^ (w + 2) = 4 * 2 ^ w := by ring
        have hwpos : 0 < 2 ^ w := Nat.pos_pow_of_pos _ (by norm_num)
        omega
      have hble := bitLenGo_le (w + 2) (last - first + 1) hLne hLlt
      have hfit : 2 ^ summarizeNbits w first last ≤ last - first + 1 :=
        le_trans (Nat.pow_le_pow_right (by norm_num) (min_le_right _ _)) hble
      have hpos : 0 < 2 ^ summarizeNbits w first last :=
        Nat.pos_pow_of_pos _ (by norm_num)
      split
      · exact List.chain'_singleton _
      · rw [List.chain'_cons']
        refine ⟨?_, ih w (first + 2 ^ summarizeNbits w first last) last (by omega) hw⟩
        intro b2 hb2
        by_cases hfl2 : first + 2 ^ summarizeNbits w first last ≤ last
        case neg =>
          rw [summarizeGo_nil_of_lt fuel w _ last (by omega)] at hb2
          simp at hb2
        case pos =>
        obtain ⟨g, rfl⟩ : ∃ g, fuel = g + 1 := ⟨fuel - 1, by omega⟩
        rw [summarizeGo_head g w _ last hfl2] at hb2
        rw [Option.mem_def, Option.some_inj] at hb2
        subst hb2
        rintro ⟨q, p, hpw, hqd, hset⟩
        have hpos2 : 0 < 2 ^ summarizeNbits w (first + 2 ^ summarizeNbits w first last) last :=
          Nat.pos_pow_of_pos _ (by norm_num)
        have hposP : 0 < 2 ^ (w - p) := Nat.pos_pow_of_pos _ (by norm_num)
        -- abbreviations inside the contradiction derivation
        set k := summarizeNbits w first last with hkdef
        set k2 := summarizeNbits w (first + 2 ^ k) last with hk2def
        -- extract the interval equality from the pointwise set equality
        have hwsub : w - (w - k) = k := by omega
        have hk2_w : k2 ≤ w :=
          le_trans (min_le_left _ _) (crz_le _ w)
        have hwsub2 : w - (w - k2) = k2 := by omega
        have hA := hset first
        have hB := hset q
        have hC := hset (first + 2 ^ k + 2 ^ k2 - 1)
        have hD := hset (q + 2 ^ (w - p) - 1)
        simp only [inBlk, hwsub, hwsub2] at hA hB hC hD
        have hq_first : q = first := by
          have h1 : q ≤ first := (hA.mpr (Or.inl (by omega))).1
          have h2 : first ≤ q := by
            rcases hB.mp (by omega) with h | h <;> omega
          omega
        have hqe : q + 2 ^ (w - p) - 1 = first + 2 ^ k + 2 ^ k2 - 1 := by
          have h1 : first + 2 ^ k + 2 ^ k2 - 1 ≤ q + 2 ^ (w - p) - 1 :=
            (hC.mpr (Or.inr (by omega))).2
          have h2 : q + 2 ^ (w - p) - 1 ≤ first + 2 ^ k + 2 ^ k2 - 1 := by
            rcases hD.mp (by omega) with h | h <;> omega
          omega
        have hsum : 2 ^ (w - p) = 2 ^ k + 2 ^ k2 := by omega
        obtain ⟨hkk2, hwp⟩ := pow_sum_cases hsum
        -- the merged block forces double alignment of first
        have hk1w : k + 1 ≤ w := by omega
        have halign : 2 ^ (k + 1) ∣ first := by
          rw [hq_first, hwp] at hqd
          exact hqd
        have hcrz2 := crz_ge first w (k + 1) halign hk1w
        -- hence the greedy min was decided by the bit length
        have hbl : bitLenGo (w + 2) (last - first + 1) - 1 = k := by
          have : k = min (countRighthandZeroBits first w)
              (bitLenGo (w + 2) (last - first + 1) - 1) := hkdef
          omega
        have hblpos : 1 ≤ bitLenGo (w + 2) (last - first + 1) :=
          bitLenGo_pos (w + 1) _ hLne
        have hLlt2 : last - first + 1 < 2 ^ (k + 1) := by
          have := bitLenGo_lt (w + 2) (last - first + 1) hLlt
          have hk1 : bitLenGo (w + 2) (last - first + 1) = k + 1 := by omega
          rwa [hk1] at this
        -- the second greedy block then fits in fewer than 2 ^ k addresses
        have hfit2 : 2 ^ k2 ≤ last - (first + 2 ^ k) + 1 := by
          have hLne2 : last - (first + 2 ^ k) + 1 ≠ 0 := by omega
          have hLlt3 : last - (first + 2 ^ k) + 1 < 2 ^ (w + 2) := by
            have h4 : 2 ^ (w + 2) = 4 * 2 ^ w := by ring
            have hwpos : 0 < 2 ^ w := Nat.pos_pow_of_pos _ (by norm_num)
            omega
          have hble2 := bitLenGo_le (w + 2) (last - (first + 2 ^ k) + 1) hLne2 hLlt3
          exact le_trans (Nat.pow_le_pow_right (by norm_num) (min_le_right _ _)) hble2
        have hp2k : 2 ^ (k + 1) = 2 * 2 ^ k := by ring
        have hlt : (2 : Nat) ^ k2 < 2 ^ k := by omega
        have : k2 < k := (Nat.pow_lt_pow_iff_right (by norm_num)).mp hlt
        omega

/-! ## Claim C2 -/

/-- C2: for any same-family range with `first ≤ last` below the family
bound, `summarize_address_range` returns pairwise non-overlapping aligned
blocks whose union is exactly `[first, last]`, and no two adjacent blocks
can be replaced by one larger aligned CIDR block exactly covering both. -/
theorem C2_summarize_minimal_cover (w first last : Nat)
    (h1 : first ≤ last) (h2 : last < 2 ^ w) :
    (summarize_address_range w first last).Pairwise
        (fun a b => ∀ x, ¬ (inBlk w a x ∧ inBlk w b x)) ∧
      (∀ x, (∃ b ∈ summarize_address_range w first last, inBlk w b x) ↔
        (first ≤ x ∧ x ≤ last)) ∧
      (summarize_address_range w first last).Chain'
        (fun a b => ¬ mergeable w a b) := by
  have hchain := summarizeGo_chain (last + 1 - first) w first last (le_refl _) h2
    (by omega)
  refine ⟨?_, blocksChain_cover hchain, summarizeGo_noMerge _ _ _ _ (le_refl _) h2⟩
  refine (blocksChain_ordered hchain).imp ?_
  intro a b h x hx
  obtain ⟨⟨ha1, ha2⟩, ⟨hb1, hb2⟩⟩ := hx
  omega

/-! ## The sweep partition -/

/-- Core invariant of the sweep on an ordered list of pairwise disjoint
subnets that start at or after the cursor and end within the space: the
emitted gaps and the subnets together partition `[cursor, lastAddr]`. -/
lemma sweep_partition {w L : Nat} :
    ∀ (R : List IPNetwork) (cursor : Nat) (gaps : List (Nat × Nat)),
      sweepLoop w L cursor R = some gaps →
      R.Pairwise (fun a b => a.broadcastInt < b.base) →
      (∀ s ∈ R, cursor ≤ s.base) →
      (∀ s ∈ R, s.broadcastInt ≤ L) →
      ∀ x, ((inGapList gaps x ∨ inSubList R x) ↔ (cursor ≤ x ∧ x ≤ L)) ∧
        ¬ (inGapList gaps x ∧ inSubList R x) := by
  intro R
  induction R with
  | nil =>
    intro cursor gaps h _ _ _ x
    simp only [sweepLoop] at h
    injection h with h
    subst h
    have hnil : ¬ inSubList ([] : List IPNetwork) x := inSubList_nil x
    by_cases hcL : cursor ≤ L
    · rw [if_pos hcL, inGapList_singleton]
      refine ⟨⟨?_, fun h1 => Or.inl h1⟩, ?_⟩
      · rintro (h1 | h1)
        · exact h1
        · exact absurd h1 hnil
      · rintro ⟨-, h2⟩
        exact hnil h2
    · rw [if_neg hcL]
      have hgap : ¬ inGapList [] x := inGapList_nil x
      refine ⟨⟨?_, fun h1 => absurd (And.intro h1.1 h1.2) (by omega)⟩, ?_⟩
      · rintro (h1 | h1)
        · exact absurd h1 hgap
        · exact absurd h1 hnil
      · rintro ⟨h1, -⟩
        exact hgap h1
  | cons s rest ih =>
    intro cursor gaps h hord hcur hL x
    simp only [sweepLoop] at h
    split at h
    · split at h
      · exact absurd h (by simp)
      · rename_i gs hrec
        injection h with h
        subst h
        rw [List.pairwise_cons] at hord
        obtain ⟨hhead, htail⟩ := hord
        have hcur2 : ∀ t ∈ rest, s.broadcastInt + 1 ≤ t.base := by
          intro t ht
          have := hhead t ht
          omega
        have hL2 : ∀ t ∈ rest, t.broadcastInt ≤ L := fun t ht =>
          hL t (List.mem_cons_of_mem s ht)
        obtain ⟨ihiff, ihdisj⟩ := ih (s.broadcastInt + 1) gs hrec htail hcur2 hL2 x
        have hsb : cursor ≤ s.base := hcur s (List.mem_cons_self s rest)
        have hsL : s.broadcastInt ≤ L := hL s (List.mem_cons_self s rest)
        have hbb : s.base ≤ s.broadcastInt := base_le_broadcastInt s
        rw [inGapList_append, inSubList_cons]
        by_cases hps : cursor < s.base
        · rw [if_pos hps, inGapList_singleton]
          refine ⟨⟨?_, ?_⟩, ?_⟩
          · rintro ((h1 | h1) | (h1 | h1))
            · omega
            · have := ihiff.mp (Or.inl h1)
              omega
            · omega
            · have := ihiff.mp (Or.inr h1)
              omega
          · intro h1
            by_cases hx1 : x ≤ s.base - 1
            · exact Or.inl (Or.inl ⟨h1.1, hx1⟩)
            · by_cases hx2 : x ≤ s.broadcastInt
              · exact Or.inr (Or.inl ⟨by omega, hx2⟩)
              · rcases ihiff.mpr ⟨by omega, h1.2⟩ with hA | hB
                · exact Or.inl (Or.inr hA)
                · exact Or.inr (Or.inr hB)
          · rintro ⟨(hg | hg), (hs1 | hs1)⟩
            · omega
            · have := ihiff.mp (Or.inr hs1)
              omega
            · have := ihiff.mp (Or.inl hg)
              omega
            · exact ihdisj ⟨hg, hs1⟩
        · rw [if_neg hps]
          push_neg at hps
          have hgap : ¬ inGapList [] x := inGapList_nil x
          refine ⟨⟨?_, ?_⟩, ?_⟩
          · rintro ((h1 | h1) | (h1 | h1))
            · exact absurd h1 hgap
            · have := ihiff.mp (Or.inl h1)
              omega
            · omega
            · have := ihiff.mp (Or.inr h1)
              omega
          · intro h1
            by_cases hx2 : x ≤ s.broadcastInt
            · exact Or.inr (Or.inl ⟨by omega, hx2⟩)
            · rcases ihiff.mpr ⟨by omega, h1.2⟩ with hA | hB
              · exact Or.inl (Or.inr hA)
              · exact Or.inr (Or.inr hB)
          · rintro ⟨(hg | hg), (hs1 | hs1)⟩
            · exact absurd hg hgap
            · exact absurd hg hgap
            · have := ihiff.mp (Or.inl hg)
              omega
            · exact ihdisj ⟨hg, hs1⟩
    · exact absurd h (by simp)

/-- Two well-formed networks whose address ranges intersect are nested
(CIDR blocks are aligned, so they cannot partially overlap). -/
lemma networks_nested {a b : IPNetwork} (ha : a.Wf) (hb : b.Wf)
    (h1 : b.base ≤ a.broadcastInt) (h2 : a.base ≤ b.broadcastInt) :
    (b.base ≤ a.base ∧ a.broadcastInt ≤ b.broadcastInt) ∨
      (a.base ≤ b.base ∧ b.broadcastInt ≤ a.broadcastInt) := by
  have hpa : 0 < a.blockSize := blockSize_pos a
  have hpb : 0 < b.blockSize := blockSize_pos b
  have hst : a.blockSize ∣ b.blockSize ∨ b.blockSize ∣ a.blockSize := by
    unfold IPNetwork.blockSize
    exact (Nat.le_total _ _).imp (pow_dvd_pow 2) (pow_dvd_pow 2)
  have hea : a.broadcastInt = a.base + a.blockSize - 1 := rfl
  have heb : b.broadcastInt = b.base + b.blockSize - 1 := rfl
  have := aligned_nested hpa hpb hst ha.2.2 hb.2.2 (by omega) (by omega)
  omega

/-! ## Claim C1 -/

/-- C1 (counterexample to the claim as stated): with the nested sub-ranges
10.0.0.0/25 and 10.0.0.0/26 inside container 10.0.0.0/24, the sweep moves
its cursor backward and emits the gap 10.0.0.64 - 10.0.0.255, so the
address 10.0.0.80 (167772240) lies both in an emitted gap and in the
sub-range 10.0.0.0/25: the two unions overlap and their union strictly
exceeds the uncovered part of the container. -/
theorem C1_counterexample :
    findGaps ⟨Family.v4, 167772160, 24⟩
        [⟨Family.v4, 167772160, 25⟩, ⟨Family.v4, 167772160, 26⟩] =
      some [(167772224, 167772415)] ∧
      inGapList [(167772224, 167772415)] 167772240 ∧
      inClippedSubs ⟨Family.v4, 167772160, 24⟩
        [⟨Family.v4, 167772160, 25⟩, ⟨Family.v4, 167772160, 26⟩] 167772240 := by
  refine ⟨by decide, ?_, ?_⟩
  · exact ⟨(167772224, 167772415), by decide, by decide, by decide⟩
  · exact ⟨⟨Family.v4, 167772160, 25⟩, by decide, by decide, by decide, by decide,
      by decide⟩

/-- C1 (amended): for a well-formed container and well-formed sub-ranges
whose relevant (family-matching, overlapping) members are pairwise
non-overlapping, whenever the sweep completes, the union of the emitted
gap intervals and the union of the filtered, clipped sub-ranges equal
exactly the container's interval, and the two unions are disjoint. -/
theorem C1_amended_gap_partition (container : IPNetwork) (subs : List IPNetwork)
    (gaps : List (Nat × Nat)) (hc : container.Wf) (hsw : ∀ s ∈ subs, s.Wf)
    (hdisj : (subs.filter (fun s => container.overlaps s)).Pairwise
      (fun a b => ¬ (b.base ≤ a.broadcastInt ∧ a.base ≤ b.broadcastInt)))
    (hrun : findGaps container subs = some gaps) :
    (∀ x, (inGapList gaps x ∨ inClippedSubs container subs x) ↔
        (container.base ≤ x ∧ x ≤ container.broadcastInt)) ∧
      ∀ x, ¬ (inGapList gaps x ∧ inClippedSubs container subs x) := by
  unfold findGaps at hrun
  set F := subs.filter (fun s => container.overlaps s) with hF
  set S := sortByBase F with hS
  have hFwf : ∀ s ∈ F, s.Wf := by
    intro s hs
    exact hsw s (List.mem_filter.mp hs).1
  have hFov : ∀ s ∈ F, container.family = s.family ∧
      s.base ≤ container.broadcastInt ∧ container.base ≤ s.broadcastInt := by
    intro s hs
    exact (overlaps_iff container s hc (hFwf s hs)).mp (List.mem_filter.mp hs).2
  have hclip : ∀ x, inClippedSubs container subs x ↔
      (inSubList F x ∧ container.base ≤ x ∧ x ≤ container.broadcastInt) := by
    intro x
    unfold inClippedSubs inSubList
    constructor
    · rintro ⟨s, hs, h1, h2, h3, h4⟩
      exact ⟨⟨s, hs, h1, h2⟩, h3, h4⟩
    · rintro ⟨⟨s, hs, h1, h2⟩, h3, h4⟩
      exact ⟨s, hs, h1, h2, h3, h4⟩
  have hdich : ∀ s ∈ F,
      (container.base ≤ s.base ∧ s.broadcastInt ≤ container.broadcastInt) ∨
        (s.base ≤ container.base ∧ container.broadcastInt ≤ s.broadcastInt) := by
    intro s hs
    obtain ⟨-, h1, h2⟩ := hFov s hs
    exact networks_nested (hFwf s hs) hc h2 h1
  have hperm : S.Perm F := List.perm_insertionSort baseLE F
  have hSmem : ∀ s : IPNetwork, s ∈ S ↔ s ∈ F := fun s => hperm.mem_iff
  have hSF : ∀ x, inSubList S x ↔ inSubList F x := by
    intro x
    unfold inSubList
    constructor
    · rintro ⟨s, hs, hb⟩
      exact ⟨s, (hSmem s).mp hs, hb⟩
    · rintro ⟨s, hs, hb⟩
      exact ⟨s, (hSmem s).mpr hs, hb⟩
  by_cases hP : ∃ s ∈ F, s.base ≤ container.base ∧
      container.broadcastInt ≤ s.broadcastInt
  · -- one sub-range covers the whole container; it is the only relevant one
    obtain ⟨s0, hs0F, hs0b, hs0e⟩ := hP
    have hintersect : ∀ t ∈ F, t.base ≤ s0.broadcastInt ∧
        s0.base ≤ t.broadcastInt := by
      intro t ht
      obtain ⟨-, ht1, ht2⟩ := hFov t ht
      exact ⟨by omega, by omega⟩
    have hFsing : F = [s0] := by
      cases hFm : F with
      | nil =>
        rw [hFm] at hs0F
        exact absurd hs0F (List.not_mem_nil s0)
      | cons a tail =>
        cases htailm : tail with
        | nil =>
          rw [hFm, htailm] at hs0F
          rcases List.mem_singleton.mp hs0F with rfl
          rfl
        | cons b rest2 =>
          exfalso
          have hdisj2 := hdisj
          rw [hFm, htailm, List.pairwise_cons] at hdisj2
          obtain ⟨hpair, -⟩ := hdisj2
          have haF : a ∈ F := by
            rw [hFm]
            exact List.mem_cons_self a tail
          rw [hFm, htailm] at hs0F
          rcases List.mem_cons.mp hs0F with rfl | hs0tail
          · have hbF : b ∈ F := by
              rw [hFm, htailm]
              exact List.mem_cons_of_mem _ (List.mem_cons_self b rest2)
            have hib := hintersect b hbF
            exact hpair b (List.mem_cons_self b rest2) ⟨hib.1, hib.2⟩
          · have hia := hintersect a haF
            exact hpair s0 hs0tail ⟨by omega, by omega⟩
    have hSs : S = [s0] := by
      rw [hS, hFsing]
      rfl
    rw [hSs] at hrun
    simp only [sweepLoop] at hrun
    split at hrun
    · rw [if_neg (by omega : ¬ container.base < s0.base),
        if_neg (by omega : ¬ s0.broadcastInt + 1 ≤ container.broadcastInt)] at hrun
      simp only [List.nil_append] at hrun
      injection hrun with hrun
      subst hrun
      have hgap : ∀ x : Nat, ¬ inGapList [] x := inGapList_nil
      constructor
      · intro x
        rw [hclip x]
        constructor
        · rintro (h1 | ⟨-, h3, h4⟩)
          · exact absurd h1 (hgap x)
          · exact ⟨h3, h4⟩
        · intro hx
          refine Or.inr ⟨?_, hx.1, hx.2⟩
          rw [hFsing]
          exact ⟨s0, List.mem_cons_self s0 [], by omega, by omega⟩
      · intro x
        rintro ⟨h1, -⟩
        exact hgap x h1
    · exact absurd hrun (by simp)
  · -- every relevant sub-range lies inside the container
    push_neg at hP
    have hsubc : ∀ s ∈ F, container.base ≤ s.base ∧
        s.broadcastInt ≤ container.broadcastInt := by
      intro s hs
      rcases hdich s hs with h | h
      · exact h
      · exact absurd h.2 (by have := hP s hs h.1; omega)
    have hsorted : S.Pairwise baseLE := List.sorted_insertionSort baseLE F
    have hdisjS : S.Pairwise
        (fun a b => ¬ (b.base ≤ a.broadcastInt ∧ a.base ≤ b.broadcastInt)) := by
      refine (hperm.pairwise_iff ?_).mpr hdisj
      intro x y hxy hcontra
      exact hxy ⟨hcontra.2, hcontra.1⟩
    have hordS : S.Pairwise (fun a b => a.broadcastInt < b.base) := by
      refine (hsorted.and hdisjS).imp ?_
      rintro a b ⟨hle, hnd⟩
      have h1 := base_le_broadcastInt a
      have h2 := base_le_broadcastInt b
      unfold baseLE at hle
      by_contra hcon
      push_neg at hcon
      exact hnd ⟨by omega, by omega⟩
    have hcurS : ∀ s ∈ S, container.base ≤ s.base := fun s hs =>
      (hsubc s ((hSmem s).mp hs)).1
    have hLS : ∀ s ∈ S, s.broadcastInt ≤ container.broadcastInt := fun s hs =>
      (hsubc s ((hSmem s).mp hs)).2
    have hpart := sweep_partition S container.base gaps hrun hordS hcurS hLS
    constructor
    · intro x
      obtain ⟨hiff, -⟩ := hpart x
      rw [hclip x]
      constructor
      · rintro (hg | ⟨-, h3, h4⟩)
        · exact hiff.mp (Or.inl hg)
        · exact ⟨h3, h4⟩
      · intro hx
        rcases hiff.mpr hx with hg | hs1
        · exact Or.inl hg
        · exact Or.inr ⟨(hSF x).mp hs1, hx.1, hx.2⟩
    · intro x
      obtain ⟨-, hdisjx⟩ := hpart x
      rintro ⟨hg, hclipx⟩
      rw [hclip x] at hclipx
      exact hdisjx ⟨hg, (hSF x).mpr hclipx.1⟩

/-- Witness for the amended C1: container 10.0.0.0/24 with the disjoint
sub-ranges 10.0.0.0/26 and 10.0.0.128/26; coverage is checked at the
address 10.0.0.80 and disjointness of the two unions at the same point. -/
theorem C1_amended_gap_partition_witness :
    ((inGapList [(167772224, 167772287), (167772352, 167772415)] 167772240 ∨
        inClippedSubs ⟨Family.v4, 167772160, 24⟩
          [⟨Family.v4, 167772160, 26⟩, ⟨Family.v4, 167772288, 26⟩] 167772240) ↔
      (167772160 ≤ 167772240 ∧ 167772240 ≤ 167772415)) ∧
      ¬ (inGapList [(167772224, 167772287), (167772352, 167772415)] 167772240 ∧
        inClippedSubs ⟨Family.v4, 167772160, 24⟩
          [⟨Family.v4, 167772160, 26⟩, ⟨Family.v4, 167772288, 26⟩] 167772240) := by
  have h := C1_amended_gap_partition ⟨Family.v4, 167772160, 24⟩
    [⟨Family.v4, 167772160, 26⟩, ⟨Family.v4, 167772288, 26⟩]
    [(167772224, 167772287), (167772352, 167772415)]
    (by decide) (by decide) (by decide) (by decide)
  exact ⟨h.1 167772240, h.2 167772240⟩

/-- Witness for C2 at the range 192.168.1.5 - 192.168.1.10 (IPv4). -/
theorem C2_summarize_minimal_cover_witness :
    (summarize_address_range 32 3232235781 3232235786).Pairwise
        (fun a b => ∀ x, ¬ (inBlk 32 a x ∧ inBlk 32 b x)) ∧
      (∀ x, (∃ b ∈ summarize_address_range 32 3232235781 3232235786, inBlk 32 b x) ↔
        (3232235781 ≤ x ∧ x ≤ 3232235786)) ∧
      (summarize_address_range 32 3232235781 3232235786).Chain'
        (fun a b => ¬ mergeable 32 a b) :=
  C2_summarize_minimal_cover 32 3232235781 3232235786 (by decide) (by decide)

end VNetGaps
